import Mathlib

/-!
Shallow embedding of `auto_nag/scripts/no_crashes.py` (class `NoCrashes`).

The embedded core is:
* `chunkify` — the static bin-packing method that partitions a sequence of
  crash signatures into batches whose total character length stays within a
  fixed budget `M = 1536`;
* `bughandler` — the Bugzilla result handler that accumulates the per-bug
  signature sets, the union set, and the per-bug summaries;
* `handler` / `resolveAll` — the Socorro SuperSearch result handler of
  `get_stats`, which removes every faceted signature from the shared
  candidate set and raises `SocorroError` on an error response;
* `get_stats` / `get_bugs_model` — the pipeline of `NoCrashes.get_bugs`:
  collect, chunkify, resolve, then decide;
* `get_bugs_without_crashes` — the eligibility decider
  (`bug_sgns < signatures`, Python strict subset).

Python sets are modelled as follows: the shared mutable candidate set is a
`Finset String`; the collector's union set is kept as a duplicate-free
`List String` in insertion order, because `chunkify` iterates it and its
result depends on the iteration order.  Exceptions (`SocorroError`, the
`KeyError` that `set.remove` raises on a missing element, and the
`ValueError` that `max()` raises on an empty sequence) are modelled with
`Except` / `Option`.
-/

deriving instance DecidableEq for Except

namespace NoCrashes

/-- The fixed query-length budget: `M = 1536` in `NoCrashes.chunkify`. -/
def M : Nat := 1536

/-- The inner `for i in res` loop of `NoCrashes.chunkify` for one signature
`s`: scan the batches `(capacity_remaining, members)` in order; on the first
batch with `L < i[0]` (strict), append `s` to its members and decrement its
capacity by `L`, leaving the rest unchanged.  Returns `none` when no batch
accepted `s` (the loop finished with `added == False`). -/
def placeFirst (s : String) : List (Nat × List String) → Option (List (Nat × List String))
  | [] => none
  | (c, xs) :: rest =>
    if s.length < c then
      some ((c - s.length, xs ++ [s]) :: rest)
    else
      match placeFirst s rest with
      | some rest' => some ((c, xs) :: rest')
      | none => none

/-- The body of the `for s in signatures` loop of `NoCrashes.chunkify`:
a signature longer than `M` is skipped (`continue`); otherwise it is placed
in the first batch that accepts it, and if none does, a fresh batch
`[M - L, [s]]` is appended. -/
def chunkStep (res : List (Nat × List String)) (s : String) : List (Nat × List String) :=
  if s.length > M then res
  else
    match placeFirst s res with
    | some res' => res'
    | none => res ++ [(M - s.length, [s])]

/-- `NoCrashes.chunkify`: pre-allocate `total // M + 1` empty batches of
capacity `M`, run the first-fit loop over the signatures in order, drop the
batches that stayed empty, and return the member lists together with the
largest member count.  `max()` over an empty sequence raises `ValueError`
in Python; that case is `none` here. -/
def chunkify (signatures : List String) : Option (List (List String) × Nat) :=
  match (((signatures.foldl chunkStep
      (List.replicate ((signatures.map String.length).sum / M + 1)
        (M, ([] : List String)))).map Prod.snd).filter (fun x => x ≠ [])) with
  | [] => none
  | c :: cs => some (c :: cs, ((c :: cs).map List.length).foldl Nat.max 0)

example : chunkify ["a"] = some ([["a"]], 1) := by decide
example : chunkify ["ab", "c"] = some ([["ab", "c"]], 2) := by decide
example : chunkify [] = none := by decide

/-- The spec's description of one first-fit step (§4.2 of the design):
scan existing batches in order and place the signature in the *first* batch
whose `capacity_remaining > L` (strict), decrementing that capacity by `L`;
if no existing batch accepts it, append a new batch
`(M - L, [signature])`.  Written with `List.findIdx?` / `List.set` from the
spec's words, to be compared with `chunkStep` from the source. -/
def chunkStepSpec (res : List (Nat × List String)) (s : String) : List (Nat × List String) :=
  match res.findIdx? (fun p => s.length < p.1) with
  | some i =>
    let p := res.getD i (0, [])
    res.set i (p.1 - s.length, p.2 ++ [s])
  | none => res ++ [(M - s.length, [s])]

/-- A fetched bug, as seen by `NoCrashes.bughandler`.  `cf_crash_signature`
holds the *parsed* signature tokens when the raw field is present.
Modelled from the spec: the parsing collaborator `utils.get_signatures`
(not part of this file's source) "splits the raw field into a set of
distinct signature tokens", extracting "zero or more signatures". -/
structure Bug where
  id : Nat
  cf_crash_signature : Option (List String)
  summary : String
deriving DecidableEq

/-- The mutable run data of `NoCrashes`: `data["signatures"]` (the union
set, kept as a duplicate-free list in insertion order because `chunkify`
iterates it), `data["ids"]` (bug id to signature set) and
`self.summaries` (stringified bug id to summary text). -/
structure CollectorData where
  signatures : List String
  ids : List (Nat × Finset String)
  summaries : List (String × String)
deriving DecidableEq

/-- The initial run data: `get_data` returns
`{"signatures": set(), "ids": {}}` and `self.summaries` starts `{}`. -/
def initData : CollectorData := ⟨[], [], []⟩

/-- `NoCrashes.bughandler`: a bug without the `cf_crash_signature` field is
ignored; otherwise its summary is stored, its parsed signature set is
recorded under its id, and each of its signatures is added to the shared
union set. -/
def bughandler (bug : Bug) (data : CollectorData) : CollectorData :=
  match bug.cf_crash_signature with
  | none => data
  | some sgns =>
    { signatures := sgns.foldl (fun l s => if s ∈ l then l else l ++ [s]) data.signatures
      ids := data.ids ++ [(bug.id, sgns.toFinset)]
      summaries := data.summaries ++ [(toString bug.id, bug.summary)] }

/-- A Socorro SuperSearch response, as consumed by the `handler` closure in
`NoCrashes.get_stats`: the `errors` indicator and the terms of the
`signature` facet (an absent facet behaves as the empty term list). -/
structure SocorroJson where
  errors : Bool
  facets : List String
deriving DecidableEq

/-- The exceptions the run can raise: `SocorroError` from the response
handler, the `KeyError` of `set.remove` on a missing element, and the
`ValueError` of `max()` on an empty sequence in `chunkify`. -/
inductive RunError where
  | socorro
  | keyError
  | valueError
deriving DecidableEq

/-- One `data.remove(facet["term"])` call: Python's `set.remove` raises
`KeyError` when the element is absent. -/
def removeTerm (data : Finset String) (t : String) : Except RunError (Finset String) :=
  if t ∈ data then .ok (data.erase t) else .error .keyError

/-- The `for facet in ...` loop of the handler: remove each facet term
from the candidate set in turn, propagating the first exception. -/
def removeAll (data : Finset String) : List String → Except RunError (Finset String)
  | [] => .ok data
  | t :: ts =>
    match removeTerm data t with
    | .ok d' => removeAll d' ts
    | .error e => .error e

/-- The `handler` closure of `NoCrashes.get_stats`: raise `SocorroError`
when the response reports errors, otherwise remove every signature-facet
term from the shared candidate set.  (`del json["hits"]` only frees the
row data and is not modelled.) -/
def handler (json : SocorroJson) (data : Finset String) : Except RunError (Finset String) :=
  if json.errors then .error .socorro
  else removeAll data json.facets

/-- Waiting on all batch searches: each search's handler runs on its
response against the shared candidate set; the first raised exception
propagates (`raise_error=True`). -/
def resolveAll (responses : List SocorroJson) (data : Finset String) :
    Except RunError (Finset String) :=
  match responses with
  | [] => .ok data
  | j :: js =>
    match handler j data with
    | .ok d' => resolveAll js d'
    | .error e => .error e

/-- `NoCrashes.get_stats`: chunkify the signature union (raising
`ValueError` when every batch ends up empty), then issue the batch
searches and let the handlers shrink the candidate set.  The responses are
external input, one per issued batch query. -/
def get_stats (signatures : List String) (responses : List SocorroJson) :
    Except RunError (Finset String) :=
  match chunkify signatures with
  | none => .error .valueError
  | some _ => resolveAll responses signatures.toFinset

/-- `NoCrashes.get_bugs_without_crashes`: a bug is emitted exactly when
`bug_sgns < signatures` — Python's *strict* subset on sets — pairing its
stringified id with its stored summary.  (In the pipeline `bughandler`
records a summary for every recorded id, so the summary lookup never
misses; the default only keeps the function total.) -/
def get_bugs_without_crashes (summaries : List (String × String))
    (ids : List (Nat × Finset String)) (signatures : Finset String) :
    List (String × String) :=
  ids.filterMap fun p =>
    if p.2 ⊂ signatures then
      some (toString p.1, ((summaries.lookup (toString p.1)).getD ""))
    else none

/-- `NoCrashes.get_bugs`: run the Bugzilla query handlers, resolve crash
occurrences against Socorro, and emit the closure candidates.  An
exception anywhere aborts the run with no candidate mapping. -/
def get_bugs_model (bugs : List Bug) (responses : List SocorroJson) :
    Except RunError (List (String × String)) :=
  let data := bugs.foldl (fun d b => bughandler b d) initData
  match get_stats data.signatures responses with
  | .error e => .error e
  | .ok surviving => .ok (get_bugs_without_crashes data.summaries data.ids surviving)

example : get_bugs_model [] [] = .error .valueError := rfl
example :
    get_bugs_model [⟨1, some ["a", "b"], "s1"⟩, ⟨2, some ["c"], "s2"⟩]
      [⟨false, ["b"]⟩] = .ok [("2", "s2")] := rfl

/-! ### The working invariant of the first-fit loop

Every batch `(capacity_remaining, members)` that `chunkify` ever holds
satisfies `(sum of member lengths) + capacity_remaining = M`. -/

lemma placeFirst_inv {s : String} {res res' : List (Nat × List String)}
    (h : placeFirst s res = some res')
    (inv : ∀ p ∈ res, (p.2.map String.length).sum + p.1 = M) :
    ∀ p ∈ res', (p.2.map String.length).sum + p.1 = M := by
  induction res generalizing res' with
  | nil => simp [placeFirst] at h
  | cons hd tl ih =>
    obtain ⟨c, xs⟩ := hd
    rw [placeFirst] at h
    by_cases hlt : s.length < c
    · rw [if_pos hlt] at h
      obtain rfl := Option.some.inj h
      intro p hp
      rcases List.mem_cons.mp hp with rfl | hp
      · have hhd := inv (c, xs) (List.mem_cons_self _ _)
        simp only [List.map_append, List.sum_append, List.map_cons, List.map_nil,
          List.sum_cons, List.sum_nil] at hhd ⊢
        omega
      · exact inv p (List.mem_cons_of_mem _ hp)
    · rw [if_neg hlt] at h
      cases hrec : placeFirst s tl with
      | none => rw [hrec] at h; exact absurd h (by simp)
      | some tl' =>
        rw [hrec] at h
        obtain rfl := Option.some.inj h
        intro p hp
        rcases List.mem_cons.mp hp with rfl | hp
        · exact inv _ (List.mem_cons_self _ _)
        · exact ih hrec (fun q hq => inv q (List.mem_cons_of_mem _ hq)) p hp

lemma chunkStep_inv {res : List (Nat × List String)} {s : String}
    (inv : ∀ p ∈ res, (p.2.map String.length).sum + p.1 = M) :
    ∀ p ∈ chunkStep res s, (p.2.map String.length).sum + p.1 = M := by
  rw [chunkStep]
  by_cases hM : s.length > M
  · rw [if_pos hM]; exact inv
  · rw [if_neg hM]
    cases hpf : placeFirst s res with
    | some res' => exact placeFirst_inv hpf inv
    | none =>
      intro p hp
      rcases List.mem_append.mp hp with hp | hp
      · exact inv p hp
      · have hp' : p = (M - s.length, [s]) := by simpa using hp
        subst hp'
        simp only [List.map_cons, List.map_nil, List.sum_cons, List.sum_nil]
        omega

lemma foldl_chunkStep_inv (l : List String) (res : List (Nat × List String))
    (inv : ∀ p ∈ res, (p.2.map String.length).sum + p.1 = M) :
    ∀ p ∈ l.foldl chunkStep res, (p.2.map String.length).sum + p.1 = M := by
  induction l generalizing res with
  | nil => exact inv
  | cons x xs ih => exact ih _ (chunkStep_inv inv)

/-- Shape of a successful `chunkify` run: the returned chunks are the
non-empty member lists of the final batch state, and the returned size is
the largest member count. -/
lemma chunkify_some {l : List String} {chunks : List (List String)} {m : Nat}
    (h : chunkify l = some (chunks, m)) :
    chunks = ((l.foldl chunkStep
        (List.replicate ((l.map String.length).sum / M + 1)
          (M, ([] : List String)))).map Prod.snd).filter (fun x => x ≠ []) ∧
      chunks ≠ [] ∧ m = (chunks.map List.length).foldl Nat.max 0 := by
  rw [chunkify] at h
  split at h
  · exact absurd h (by simp)
  · rename_i c cs hc
    rw [Option.some.injEq, Prod.mk.injEq] at h
    obtain ⟨rfl, rfl⟩ := h
    exact ⟨hc.symm, by simp, rfl⟩

/-- **C1.** Every batch returned by `chunkify` has a total member length
of at most `M = 1536`. -/
theorem chunkify_batch_length_le (l : List String) (chunks : List (List String)) (m : Nat)
    (h : chunkify l = some (chunks, m)) :
    ∀ b ∈ chunks, (b.map String.length).sum ≤ 1536 := by
  obtain ⟨hchunks, -, -⟩ := chunkify_some h
  subst hchunks
  intro b hb
  obtain ⟨p, hp, rfl⟩ := List.mem_map.mp (List.mem_of_mem_filter hb)
  have inv := foldl_chunkStep_inv l
    (List.replicate ((l.map String.length).sum / M + 1) (M, ([] : List String)))
    (fun q hq => by
      obtain ⟨-, rfl⟩ := List.mem_replicate.mp hq
      simp)
  have hsum := inv p hp
  have hM : M = 1536 := rfl
  omega

/-- Witness for `chunkify_batch_length_le` at a concrete input. -/
theorem chunkify_batch_length_le_witness :
    chunkify ["a"] = some ([["a"]], 1) ∧
      ((["a"] : List String).map String.length).sum ≤ 1536 :=
  ⟨by decide, chunkify_batch_length_le ["a"] [["a"]] 1 (by decide) ["a"] (by decide)⟩

/-! ### Multiset bookkeeping of the first-fit loop

One pass of the loop places a kept signature in exactly one batch; dropped
batches are all empty, so the flattened output counts each signature of
length at most `M` exactly as often as the input does. -/

lemma placeFirst_count {s : String} {res res' : List (Nat × List String)}
    (h : placeFirst s res = some res') (t : String) :
    ((res'.map Prod.snd).flatten).count t
      = ((res.map Prod.snd).flatten).count t + (if s = t then 1 else 0) := by
  induction res generalizing res' with
  | nil => simp [placeFirst] at h
  | cons hd tl ih =>
    obtain ⟨c, xs⟩ := hd
    rw [placeFirst] at h
    by_cases hlt : s.length < c
    · rw [if_pos hlt] at h
      obtain rfl := Option.some.inj h
      simp only [List.map_cons, List.flatten_cons, List.count_append, List.count_cons,
        List.count_nil, beq_iff_eq]
      omega
    · rw [if_neg hlt] at h
      cases hrec : placeFirst s tl with
      | none => rw [hrec] at h; exact absurd h (by simp)
      | some tl' =>
        rw [hrec] at h
        obtain rfl := Option.some.inj h
        simp only [List.map_cons, List.flatten_cons, List.count_append]
        rw [ih hrec]
        omega

lemma chunkStep_count (res : List (Nat × List String)) (s t : String) :
    (((chunkStep res s).map Prod.snd).flatten).count t
      = ((res.map Prod.snd).flatten).count t
        + (if s.length ≤ M ∧ s = t then 1 else 0) := by
  rw [chunkStep]
  by_cases hM : s.length > M
  · rw [if_pos hM]
    have hcond : ¬(s.length ≤ M ∧ s = t) := by omega
    rw [if_neg hcond]
    omega
  · rw [if_neg hM]
    have hle : s.length ≤ M := Nat.not_lt.mp hM
    have hcond : (s.length ≤ M ∧ s = t) ↔ s = t := by tauto
    cases hpf : placeFirst s res with
    | some res' =>
      rw [placeFirst_count hpf t, if_congr hcond rfl rfl]
    | none =>
      rw [List.map_append, List.flatten_append, List.count_append, if_congr hcond rfl rfl]
      simp only [List.map_cons, List.map_nil, List.flatten_cons, List.flatten_nil,
        List.append_nil, List.count_cons, List.count_nil, beq_iff_eq]
      omega

lemma foldl_chunkStep_count (l : List String) (res : List (Nat × List String)) (t : String) :
    (((l.foldl chunkStep res).map Prod.snd).flatten).count t
      = ((res.map Prod.snd).flatten).count t
        + (l.filter (fun s => s.length ≤ M)).count t := by
  induction l generalizing res with
  | nil => simp
  | cons x xs ih =>
    rw [List.foldl_cons, ih, chunkStep_count, List.filter_cons]
    by_cases hx : x.length ≤ M
    · have hcond : (x.length ≤ M ∧ x = t) ↔ x = t := by tauto
      rw [if_congr hcond rfl rfl, if_pos (show decide (x.length ≤ M) = true by simpa using hx),
        List.count_cons]
      simp only [beq_iff_eq]
      omega
    · have hcond : ¬(x.length ≤ M ∧ x = t) := by tauto
      rw [if_neg hcond, if_neg (show ¬decide (x.length ≤ M) = true by simpa using hx)]
      omega

lemma replicate_flatten_nil (n : Nat) :
    (((List.replicate n (M, ([] : List String))).map Prod.snd).flatten) = ([] : List String) := by
  induction n with
  | zero => rfl
  | succ k ih => simp [List.replicate_succ, ih]

lemma flatten_filter_ne_nil (L : List (List String)) :
    (L.filter (fun x => x ≠ [])).flatten = L.flatten := by
  induction L with
  | nil => rfl
  | cons x xs ih =>
    by_cases hx : x = []
    · subst hx
      rw [List.filter_cons, if_neg (by simp)]
      simpa using ih
    · rw [List.filter_cons, if_pos (by simpa using hx), List.flatten_cons, List.flatten_cons, ih]

/-- The flattened output of a successful `chunkify` counts each signature
exactly as often as the input restricted to lengths at most `M`. -/
lemma chunkify_count {l : List String} {chunks : List (List String)} {m : Nat}
    (h : chunkify l = some (chunks, m)) (t : String) :
    chunks.flatten.count t = (l.filter (fun s => s.length ≤ M)).count t := by
  obtain ⟨hchunks, -, -⟩ := chunkify_some h
  subst hchunks
  rw [flatten_filter_ne_nil, foldl_chunkStep_count, replicate_flatten_nil]
  simp

lemma countP_mem_zero_of_flatten {chunks : List (List String)} {s : String}
    (h : chunks.flatten.count s = 0) : chunks.countP (fun b => s ∈ b) = 0 := by
  rw [List.count_eq_zero] at h
  rw [List.countP_eq_zero]
  intro b hb
  simp only [decide_eq_true_eq]
  exact fun hsb => h (List.mem_flatten.mpr ⟨b, hb, hsb⟩)

lemma countP_mem_one_of_flatten {chunks : List (List String)} {s : String}
    (h : chunks.flatten.count s = 1) : chunks.countP (fun b => s ∈ b) = 1 := by
  induction chunks with
  | nil => simp at h
  | cons x xs ih =>
    rw [List.flatten_cons, List.count_append] at h
    rw [List.countP_cons]
    by_cases hx : s ∈ x
    · have hcx : 0 < List.count s x := List.count_pos_iff.mpr hx
      have hzero : List.count s xs.flatten = 0 := by omega
      rw [if_pos (by simpa using hx), countP_mem_zero_of_flatten hzero]
    · have hcx : List.count s x = 0 := List.count_eq_zero.mpr hx
      rw [if_neg (by simpa using hx), ih (by omega)]

/-- **C3.** In a successful `chunkify` run on a duplicate-free input,
every input signature of length at most `M = 1536` lies in exactly one
returned batch, every longer one lies in none, and no returned batch is
empty. -/
theorem chunkify_partition (l : List String) (chunks : List (List String)) (m : Nat)
    (h : chunkify l = some (chunks, m)) (hnd : l.Nodup) :
    (∀ s ∈ l, s.length ≤ 1536 → chunks.countP (fun b => s ∈ b) = 1) ∧
    (∀ s ∈ l, s.length > 1536 → ∀ b ∈ chunks, s ∉ b) ∧
    (∀ b ∈ chunks, b ≠ []) := by
  have hM : M = 1536 := rfl
  refine ⟨?_, ?_, ?_⟩
  · intro s hs hlen
    apply countP_mem_one_of_flatten
    rw [chunkify_count h s, List.count_filter (by simp; omega)]
    exact List.count_eq_one_of_mem hnd hs
  · intro s hs hlen b hb hsb
    have hpos : 0 < chunks.flatten.count s :=
      List.count_pos_iff.mpr (List.mem_flatten.mpr ⟨b, hb, hsb⟩)
    rw [chunkify_count h s] at hpos
    have hzero : List.count s (l.filter (fun s => s.length ≤ M)) = 0 := by
      rw [List.count_eq_zero]
      intro hmem
      have := List.of_mem_filter hmem
      simp only [decide_eq_true_eq] at this
      omega
    omega
  · intro b hb
    obtain ⟨hchunks, -, -⟩ := chunkify_some h
    rw [hchunks] at hb
    simpa using List.of_mem_filter hb

/-- Witness for `chunkify_partition` at a concrete input. -/
theorem chunkify_partition_witness :
    chunkify ["a"] = some ([["a"]], 1) ∧ (["a"] : List String).Nodup ∧
      ([["a"]] : List (List String)).countP (fun b => "a" ∈ b) = 1 ∧
      (∀ b ∈ ([["a"]] : List (List String)), b ≠ []) :=
  ⟨by decide, by decide,
    (chunkify_partition ["a"] [["a"]] 1 (by decide) (by decide)).1 "a" (by decide) (by decide),
    (chunkify_partition ["a"] [["a"]] 1 (by decide) (by decide)).2.2⟩

/-! ### The first-fit step against the spec's description -/

lemma placeFirst_eq (s : String) (res : List (Nat × List String)) :
    placeFirst s res =
      match res.findIdx? (fun p => s.length < p.1) with
      | some i => some (res.set i ((res.getD i (0, [])).1 - s.length,
          (res.getD i (0, [])).2 ++ [s]))
      | none => none := by
  induction res with
  | nil => rfl
  | cons hd tl ih =>
    obtain ⟨c, xs⟩ := hd
    rw [placeFirst, List.findIdx?_cons]
    by_cases hlt : s.length < c
    · rw [if_pos hlt, if_pos (show decide (s.length < (c, xs).1) = true by simpa using hlt)]
      simp
    · rw [if_neg hlt, if_neg (show ¬decide (s.length < (c, xs).1) = true by simpa using hlt),
        List.findIdx?_succ, ih]
      cases hidx : List.findIdx? (fun p => s.length < p.1) tl with
      | none => simp
      | some j => simp

/-- **C4.** For a signature of length at most `1536`, one step of the
source loop (`chunkStep`) coincides with the spec's first-fit rule
(`chunkStepSpec`): place in the first batch whose remaining capacity
strictly exceeds the length, decrementing it, else append a fresh batch
`(M - L, [s])`. -/
theorem chunkStep_eq_spec (res : List (Nat × List String)) (s : String)
    (h : s.length ≤ 1536) :
    chunkStep res s = chunkStepSpec res s := by
  have hM : ¬s.length > M := by
    have : M = 1536 := rfl
    omega
  rw [chunkStep, chunkStepSpec, if_neg hM, placeFirst_eq]
  cases hidx : List.findIdx? (fun p => s.length < p.1) res with
  | none => rfl
  | some i => rfl

/-- Witness for `chunkStep_eq_spec` at a concrete input. -/
theorem chunkStep_eq_spec_witness :
    ("a".length ≤ 1536) ∧
      chunkStep [(0, ["x"]), (1536, [])] "a" = chunkStepSpec [(0, ["x"]), (1536, [])] "a" :=
  ⟨by decide, chunkStep_eq_spec [(0, ["x"]), (1536, [])] "a" (by decide)⟩

/-- **C9.** `chunkify` is deterministic in the input order: two runs on the
same sequence of signatures return the same batches and the same maximum
member count. -/
theorem chunkify_deterministic (l₁ l₂ : List String) (h : l₁ = l₂) :
    chunkify l₁ = chunkify l₂ := by rw [h]

/-- Witness for `chunkify_deterministic` at a concrete input. -/
theorem chunkify_deterministic_witness :
    (["a", "bb"] : List String) = ["a", "bb"] ∧ chunkify ["a", "bb"] = chunkify ["a", "bb"] :=
  ⟨rfl, chunkify_deterministic ["a", "bb"] ["a", "bb"] rfl⟩

/-! ### Resolution: monotone shrink and fatal-error propagation -/

lemma removeTerm_subset {d d' : Finset String} {t : String}
    (h : removeTerm d t = .ok d') : d' ⊆ d := by
  rw [removeTerm] at h
  by_cases ht : t ∈ d
  · rw [if_pos ht] at h
    injection h with h
    subst h
    exact Finset.erase_subset _ _
  · rw [if_neg ht] at h
    exact absurd h (by simp)

lemma removeAll_subset {ts : List String} {d d' : Finset String}
    (h : removeAll d ts = .ok d') : d' ⊆ d := by
  induction ts generalizing d with
  | nil =>
    rw [removeAll] at h
    injection h with h
    subst h
    exact Finset.Subset.refl d
  | cons t ts ih =>
    rw [removeAll] at h
    cases hrt : removeTerm d t with
    | ok d1 =>
      rw [hrt] at h
      exact (ih h).trans (removeTerm_subset hrt)
    | error e =>
      rw [hrt] at h
      exact absurd h (by simp)

lemma handler_subset {j : SocorroJson} {d d' : Finset String}
    (h : handler j d = .ok d') : d' ⊆ d := by
  rw [handler] at h
  by_cases he : j.errors
  · rw [if_pos he] at h
    exact absurd h (by simp)
  · rw [if_neg he] at h
    exact removeAll_subset h

lemma resolveAll_subset {js : List SocorroJson} {d d' : Finset String}
    (h : resolveAll js d = .ok d') : d' ⊆ d := by
  induction js generalizing d with
  | nil =>
    rw [resolveAll] at h
    injection h with h
    subst h
    exact Finset.Subset.refl d
  | cons j js ih =>
    rw [resolveAll] at h
    cases hj : handler j d with
    | ok d1 =>
      rw [hj] at h
      exact (ih h).trans (handler_subset hj)
    | error e =>
      rw [hj] at h
      exact absurd h (by simp)

/-- **C7.** The candidate universe only shrinks: a successful handler step
returns a subset of its input set (it never adds an element), and resolving
all batches returns a subset of the pre-resolution set. -/
theorem resolution_only_shrinks (j : SocorroJson) (d d' : Finset String)
    (js : List SocorroJson) (e e' : Finset String)
    (hstep : handler j d = .ok d') (hall : resolveAll js e = .ok e') :
    d' ⊆ d ∧ e' ⊆ e :=
  ⟨handler_subset hstep, resolveAll_subset hall⟩

/-- Witness for `resolution_only_shrinks` at a concrete input. -/
theorem resolution_only_shrinks_witness :
    (handler ⟨false, ["a"]⟩ ({"a", "b"} : Finset String) = .ok ({"b"} : Finset String) ∧
        resolveAll [⟨false, ["a"]⟩] ({"a", "b"} : Finset String) = .ok ({"b"} : Finset String)) ∧
      (({"b"} : Finset String) ⊆ {"a", "b"} ∧ ({"b"} : Finset String) ⊆ {"a", "b"}) :=
  ⟨⟨by decide, by decide⟩,
    resolution_only_shrinks ⟨false, ["a"]⟩ {"a", "b"} {"b"} [⟨false, ["a"]⟩] {"a", "b"} {"b"}
      (by decide) (by decide)⟩

lemma handler_error_of_errors {j : SocorroJson} (he : j.errors = true) (d : Finset String) :
    handler j d = .error .socorro := by
  rw [handler, if_pos he]

lemma resolveAll_error_of_mem {js : List SocorroJson} {r : SocorroJson}
    (hr : r ∈ js) (he : r.errors = true) (d : Finset String) :
    ∃ e, resolveAll js d = .error e := by
  induction js generalizing d with
  | nil => exact absurd hr (by simp)
  | cons j js ih =>
    rw [resolveAll]
    rcases List.mem_cons.mp hr with rfl | hr'
    · rw [handler_error_of_errors he]
      exact ⟨.socorro, rfl⟩
    · cases hj : handler j d with
      | ok d1 => exact ih hr' d1
      | error e => exact ⟨e, rfl⟩

lemma get_stats_error_of_mem (sigs : List String) {js : List SocorroJson} {r : SocorroJson}
    (hr : r ∈ js) (he : r.errors = true) :
    ∃ e, get_stats sigs js = .error e := by
  rw [get_stats]
  cases hc : chunkify sigs with
  | none => exact ⟨.valueError, rfl⟩
  | some p => exact resolveAll_error_of_mem hr he _

/-- **C8.** An error-flagged batch response makes its handler raise
`SocorroError` (a distinct fatal kind), and the whole run aborts with an
error, producing no closure-candidate mapping — regardless of the other
batches. -/
theorem error_aborts_run (bugs : List Bug) (responses : List SocorroJson)
    (r : SocorroJson) (hr : r ∈ responses) (he : r.errors = true) (d : Finset String) :
    handler r d = .error .socorro ∧
      ∃ e, get_bugs_model bugs responses = .error e := by
  refine ⟨handler_error_of_errors he d, ?_⟩
  obtain ⟨e, hgs⟩ := get_stats_error_of_mem
    ((bugs.foldl (fun d b => bughandler b d) initData).signatures) hr he
  refine ⟨e, ?_⟩
  simp only [get_bugs_model]
  rw [hgs]

/-- Witness for `error_aborts_run` at a concrete input. -/
theorem error_aborts_run_witness :
    ((⟨true, []⟩ : SocorroJson) ∈ [(⟨true, []⟩ : SocorroJson)] ∧
        (SocorroJson.mk true []).errors = true) ∧
      (handler ⟨true, []⟩ ∅ = .error .socorro ∧
        ∃ e, get_bugs_model [⟨1, some ["a"], "s"⟩] [⟨true, []⟩] = .error e) :=
  ⟨⟨by decide, rfl⟩,
    error_aborts_run [⟨1, some ["a"], "s"⟩] [⟨true, []⟩] ⟨true, []⟩ (by decide) rfl ∅⟩

/-! ### The eligibility decider -/

lemma mem_decider {summaries : List (String × String)} {ids : List (Nat × Finset String)}
    {sigs : Finset String} {x : String × String} :
    x ∈ get_bugs_without_crashes summaries ids sigs ↔
      ∃ p ∈ ids, p.2 ⊂ sigs ∧
        x = (toString p.1, ((summaries.lookup (toString p.1)).getD "")) := by
  rw [get_bugs_without_crashes, List.mem_filterMap]
  constructor
  · rintro ⟨p, hp, hf⟩
    by_cases hss : p.2 ⊂ sigs
    · rw [if_pos hss] at hf
      exact ⟨p, hp, hss, (Option.some.inj hf).symm⟩
    · rw [if_neg hss] at hf
      exact absurd hf (by simp)
  · rintro ⟨p, hp, hss, rfl⟩
    exact ⟨p, hp, by rw [if_pos hss]⟩

/-- **C2 (counterexample).** A bug whose recorded signature set equals the
surviving candidate set has every recorded signature present, yet the
decider does not emit it: `bug_sgns < signatures` is Python's *strict*
subset. -/
theorem decider_subset_not_sufficient :
    ({"a"} : Finset String) ⊆ {"a"} ∧
      get_bugs_without_crashes [("1", "s")] [(1, ({"a"} : Finset String))] {"a"} = [] :=
  ⟨by decide, by decide⟩

/-- **C2 (amended).** With distinct stringified bug ids, a recorded bug is
emitted by the decider iff its signature set is a *proper* subset of the
post-resolution candidate set: every recorded signature survived and some
surviving signature lies outside the bug's set. -/
theorem decider_emits_iff_ssubset (summaries : List (String × String))
    (ids : List (Nat × Finset String)) (sigs : Finset String)
    (bugid : Nat) (sgns : Finset String)
    (hkeys : (ids.map fun p => toString p.1).Nodup)
    (hmem : (bugid, sgns) ∈ ids) :
    (∃ sm, (toString bugid, sm) ∈ get_bugs_without_crashes summaries ids sigs) ↔
      sgns ⊂ sigs := by
  constructor
  · rintro ⟨sm, hsm⟩
    obtain ⟨p, hp, hss, heq⟩ := mem_decider.mp hsm
    have hid : toString p.1 = toString bugid := (congrArg Prod.fst heq).symm
    have hpe : p = (bugid, sgns) :=
      List.inj_on_of_nodup_map hkeys hp hmem hid
    rw [hpe] at hss
    exact hss
  · intro hss
    exact ⟨_, mem_decider.mpr ⟨(bugid, sgns), hmem, hss, rfl⟩⟩

/-- Witness for `decider_emits_iff_ssubset` at a concrete input. -/
theorem decider_emits_iff_ssubset_witness :
    (([(1, ({"a"} : Finset String))].map fun p => toString p.1).Nodup ∧
        (1, ({"a"} : Finset String)) ∈ [(1, ({"a"} : Finset String))]) ∧
      ((∃ sm, (toString 1, sm) ∈
          get_bugs_without_crashes [("1", "s")] [(1, ({"a"} : Finset String))] {"a", "b"}) ↔
        ({"a"} : Finset String) ⊂ {"a", "b"}) :=
  ⟨⟨by decide, by decide⟩,
    decider_emits_iff_ssubset [("1", "s")] [(1, {"a"})] {"a", "b"} 1 {"a"}
      (by decide) (by decide)⟩

/-- **C10.** A bug whose recorded signature set equals the entire surviving
candidate set is not emitted: the decider tests proper containment, so in
particular a lone recorded bug none of whose signatures crashed is not a
candidate. -/
theorem decider_equal_universe_not_candidate (summaries : List (String × String))
    (ids : List (Nat × Finset String)) (sigs : Finset String)
    (bugid : Nat) (sgns : Finset String)
    (hkeys : (ids.map fun p => toString p.1).Nodup)
    (hmem : (bugid, sgns) ∈ ids) (heq : sgns = sigs) :
    ∀ sm, (toString bugid, sm) ∉ get_bugs_without_crashes summaries ids sigs := by
  intro sm hsm
  obtain ⟨p, hp, hss, hx⟩ := mem_decider.mp hsm
  have hid : toString p.1 = toString bugid := (congrArg Prod.fst hx).symm
  have hpe : p = (bugid, sgns) :=
    List.inj_on_of_nodup_map hkeys hp hmem hid
  rw [hpe] at hss
  subst heq
  exact ssubset_irrefl _ hss

/-- Witness for `decider_equal_universe_not_candidate`: one recorded bug,
none of whose signatures crashed, is not a candidate. -/
theorem decider_equal_universe_not_candidate_witness :
    (([(1, ({"a"} : Finset String))].map fun p => toString p.1).Nodup ∧
        (1, ({"a"} : Finset String)) ∈ [(1, ({"a"} : Finset String))]) ∧
      ∀ sm, (toString 1, sm) ∉
        get_bugs_without_crashes [("1", "s")] [(1, ({"a"} : Finset String))] {"a"} :=
  ⟨⟨by decide, by decide⟩,
    decider_equal_universe_not_candidate [("1", "s")] [(1, {"a"})] {"a"} 1 {"a"}
      (by decide) (by decide) rfl⟩

/-- **C6 (counterexample).** A bug whose crash-signature field is present
but parses to zero signatures is *not* omitted from the per-bug map, and
it is emitted as a closure candidate: the empty set is a proper subset of
the non-empty surviving set. -/
theorem bughandler_zero_sig_cex :
    (bughandler ⟨1, some [], "s"⟩ initData).ids = [(1, (∅ : Finset String))] ∧
      get_bugs_without_crashes [("1", "s")]
        [(1, (∅ : Finset String)), (2, ({"x"} : Finset String))]
        ({"x"} : Finset String) = [("1", "s")] :=
  ⟨by decide, by decide⟩

/-- **C6 (amended).** A bug without the crash-signature field is omitted
from the run data; a bug whose field is present but parses to zero
signatures is recorded in the per-bug map with the empty set while adding
nothing to the union, and the decider emits any recorded zero-signature
bug whenever the surviving candidate set is non-empty. -/
theorem bughandler_zero_sig_amended (b : Bug) (d : CollectorData)
    (hb : b.cf_crash_signature = some [])
    (b' : Bug) (hb' : b'.cf_crash_signature = none)
    (summaries : List (String × String)) (ids : List (Nat × Finset String))
    (sigs : Finset String)
    (hmem : (b.id, (∅ : Finset String)) ∈ ids) (hne : sigs.Nonempty) :
    bughandler b' d = d ∧
      (bughandler b d).ids = d.ids ++ [(b.id, (∅ : Finset String))] ∧
      (bughandler b d).signatures = d.signatures ∧
      ∃ sm, (toString b.id, sm) ∈ get_bugs_without_crashes summaries ids sigs := by
  refine ⟨by rw [bughandler, hb'], ?_, ?_, ?_⟩
  · rw [bughandler, hb]
    rfl
  · rw [bughandler, hb]
    rfl
  · exact ⟨_, mem_decider.mpr ⟨(b.id, ∅), hmem, Finset.empty_ssubset.mpr hne, rfl⟩⟩

/-- Witness for `bughandler_zero_sig_amended` at a concrete input. -/
theorem bughandler_zero_sig_amended_witness :
    ((Bug.mk 1 (some []) "s").cf_crash_signature = some [] ∧
        (Bug.mk 3 none "t").cf_crash_signature = none ∧
        (1, (∅ : Finset String)) ∈ [(1, (∅ : Finset String))] ∧
        ({"x"} : Finset String).Nonempty) ∧
      (bughandler ⟨3, none, "t"⟩ initData = initData ∧
        (bughandler ⟨1, some [], "s"⟩ initData).ids = initData.ids ++ [(1, (∅ : Finset String))] ∧
        (bughandler ⟨1, some [], "s"⟩ initData).signatures = initData.signatures ∧
        ∃ sm, (toString 1, sm) ∈
          get_bugs_without_crashes [("1", "s")] [(1, (∅ : Finset String))] {"x"}) :=
  ⟨⟨rfl, rfl, by decide, by decide⟩,
    bughandler_zero_sig_amended ⟨1, some [], "s"⟩ initData rfl ⟨3, none, "t"⟩ rfl
      [("1", "s")] [(1, ∅)] {"x"} (by decide) (by decide)⟩

/-- **C5 (failing input).** The pipeline does not guard the planner
against an empty signature union: with no fetched bugs, `get_bugs` still
reaches `chunkify`, whose `max()` over the empty batch list fails
(`ValueError`) and aborts the run. -/
theorem get_bugs_unguarded_empty :
    chunkify [] = none ∧ get_bugs_model [] [] = .error .valueError :=
  ⟨rfl, rfl⟩

end NoCrashes
